import Mathlib

/-!  Verification of src/openapi-to-wxrequest.js.

JavaScript document values are modelled by `Js`, absent (`undefined`)
values by `Option`, and runtime parameter values supplied to a generated
client method by maps `String → Option String` keyed by the normalized
identifier (the string coercion of the value; `none` is `undefined`).
Recursion that the source performs on the document graph (schema
resolution and type inference) is bounded by an explicit fuel argument,
because the source recurses unboundedly on cyclic documents.  -/

namespace OpenapiWx

/-- JSON-like JavaScript values making up a parsed OpenAPI document. -/
inductive Js where
  | nullv : Js
  | boolv : Bool → Js
  | numv : Int → Js
  | str : String → Js
  | obj : List (String × Js) → Js
  | arr : List Js → Js

/-- JavaScript truthiness of a document value. -/
def Js.truthy : Js → Bool
  | .nullv => false
  | .boolv b => b
  | .numv n => n != 0
  | .str s => s != ""
  | .obj _ => true
  | .arr _ => true

def lookupField : List (String × Js) → String → Option Js
  | [], _ => none
  | f :: rest, key => if f.1 = key then some f.2 else lookupField rest key

/-- Property access `v.k` (`undefined` is `none`). -/
def getField (v : Js) (k : String) : Option Js :=
  match v with
  | .obj fs => lookupField fs k
  | _ => none

/-- Property access that yields the value only when it is a string. -/
def getStrField (v : Js) (k : String) : Option String :=
  match getField v k with
  | some (.str s) => some s
  | _ => none

/-- Truthiness of the property `v.k` (`undefined` is falsy). -/
def fieldTruthy (v : Js) (k : String) : Bool :=
  match getField v k with
  | some x => x.truthy
  | none => false

/-- `Object.entries`, for the value shapes reachable from the generator. -/
def jsEntries : Js → List (String × Js)
  | .obj fs => fs
  | .arr xs => xs.enum.map (fun ix => (toString ix.1, ix.2))
  | .str s => s.data.enum.map (fun ic => (toString ic.1, Js.str (String.mk [ic.2])))
  | _ => []

/-- Indexing `v[segment]` as used by the reference walk of `resolveSchema`. -/
def indexJs (v : Js) (seg : String) : Option Js :=
  match v with
  | .obj fs => lookupField fs seg
  | .arr xs =>
      match seg.toNat? with
      | some i => if toString i = seg then xs.get? i else none
      | none => none
  | _ => none

/-! ## NameNormalizer: `normalizeParamName` (src lines 162-177) -/

/-- The character class `[a-zA-Z0-9_$]` of the first replacement regex. -/
def isIdentChar (c : Char) : Bool :=
  c.isAlpha || c.isDigit || c = '_' || c = '$'

/-- `name.replace(/[^a-zA-Z0-9_$]/g, plain underscore)`. -/
def replaceInvalid (cs : List Char) : List Char :=
  cs.map (fun c => if isIdentChar c then c else '_')

/-- The test `/^\d/.test(s)`. -/
def startsWithDigit : List Char → Bool
  | [] => false
  | c :: _ => c.isDigit

/-- `s.replace(/[_-]([a-zA-Z0-9])/g, (_, char) => char.toUpperCase())`:
left-to-right, non-overlapping camel-case collapse. -/
def camelCollapse : List Char → List Char
  | [] => []
  | [c] => [c]
  | c :: d :: rest =>
    if c = '_' || c = '-' then
      if d.isAlpha || d.isDigit then d.toUpper :: camelCollapse rest
      else c :: camelCollapse (d :: rest)
    else c :: camelCollapse (d :: rest)

/-- `normalizeParamName` from the source: replace invalid characters by
underscores, guard a leading digit, then camel-collapse when the original
name contained a hyphen or an underscore. -/
def normalizeParamName (name : String) : String :=
  let n1 := replaceInvalid name.data
  let n2 := if startsWithDigit n1 then '_' :: n1 else n1
  let n3 :=
    if name.data.contains '-' || name.data.contains '_' then camelCollapse n2
    else n2
  String.mk n3

/-! ## Path-template scanning: the regex `{([^}]+)}` used at src lines
237 and 372.  A placeholder is an opening brace followed by one or more
non-closing-brace characters and a closing brace; everything else is a
literal character. -/

def obraceChar : Char := Char.ofNat 123

def cbraceChar : Char := Char.ofNat 125

inductive PathPiece where
  | lit : Char → PathPiece
  | param : List Char → PathPiece

/-- Scanner for the placeholder regex.  The second argument buffers the
characters read since a pending opening brace (in reverse), `none` when no
brace is pending. -/
def scanCore : List Char → Option (List Char) → List PathPiece
  | [], none => []
  | [], some buf => PathPiece.lit obraceChar :: buf.reverse.map PathPiece.lit
  | c :: rest, none =>
    if c = obraceChar then scanCore rest (some [])
    else PathPiece.lit c :: scanCore rest none
  | c :: rest, some buf =>
    if c = cbraceChar then
      if buf.isEmpty then
        PathPiece.lit obraceChar :: PathPiece.lit cbraceChar :: scanCore rest none
      else PathPiece.param buf.reverse :: scanCore rest none
    else scanCore rest (some (c :: buf))

def scanPieces (cs : List Char) : List PathPiece :=
  scanCore cs none

def pieceChars : PathPiece → List Char
  | .lit c => [c]
  | .param n => n

/-- `path.replace(/{([^}]+)}/g, dollar-one)`: braces dropped, names kept. -/
def removeBraces (cs : List Char) : List Char :=
  (scanPieces cs).flatMap pieceChars

def piecePlaceholder : PathPiece → Option String
  | .lit _ => none
  | .param n => some (String.mk n)

/-- The `{name}` placeholder names of a path template, in order. -/
def placeholderNames (path : String) : List String :=
  (scanPieces path.data).filterMap piecePlaceholder

/-! ## The synthesized URL template (src lines 236-240) -/

inductive UrlPiece where
  | lit : Char → UrlPiece
  | interp : String → UrlPiece

/-- Each placeholder becomes an interpolation of the normalized name. -/
def pieceToUrl (p : PathPiece) : UrlPiece :=
  match p with
  | .lit c => .lit c
  | .param n => .interp (normalizeParamName (String.mk n))

/-- The URL template the generator synthesizes for a path. -/
def urlPieces (path : String) : List UrlPiece :=
  (scanPieces path.data).map pieceToUrl

def urlInterpName : UrlPiece → Option String
  | .lit _ => none
  | .interp v => some v

/-- The interpolation points of a synthesized URL template, in order. -/
def interpNames (ps : List UrlPiece) : List String :=
  ps.filterMap urlInterpName

/-- Evaluating the synthesized template literal: a template-literal
interpolation of `undefined` renders as the string `undefined`. -/
def renderUrl (ps : List UrlPiece) (vals : String → Option String) : String :=
  String.mk (ps.flatMap (fun p =>
    match p with
    | .lit c => [c]
    | .interp v => ((vals v).getD "undefined").data))

/-! ## OperationPlanner: `generateFunctionNameFromPath` (src 370-386)
and the `operationId` fallback (src 190). -/

def lowerChars (cs : List Char) : List Char :=
  cs.map Char.toLower

/-- `part.charAt(0).toUpperCase() + part.slice(1).toLowerCase()`. -/
def capSeg : List Char → List Char
  | [] => []
  | c :: rest => c.toUpper :: lowerChars rest

/-- `String.prototype.split` on a separator character. -/
def splitChars (sep : Char) : List Char → List (List Char)
  | [] => [[]]
  | c :: rest =>
    match splitChars sep rest with
    | [] => [[c]]
    | h :: t => if c = sep then [] :: h :: t else (c :: h) :: t

/-- Joining segments with a separator character; the inverse of
`splitChars` on separator-free segments, used to state the naming scheme
of the specification segment-wise. -/
def joinSep (sep : Char) : List (List Char) → List Char
  | [] => []
  | [x] => x
  | x :: y :: t => x ++ sep :: joinSep sep (y :: t)

/-- `path.replace(/^\//, plain empty)`. -/
def dropLeadingSlash : List Char → List Char
  | [] => []
  | c :: rest => if c = '/' then rest else c :: rest

def generateFunctionNameFromPath (method path : String) : String :=
  let cleanPath := removeBraces (dropLeadingSlash path.data)
  let parts := splitChars '/' cleanPath
  let camel :=
    match parts with
    | [] => []
    | p0 :: rest => lowerChars p0 ++ (rest.map capSeg).flatten
  String.mk (lowerChars method.data ++ camel)

/-- An operation, reduced to the field relevant for naming. -/
structure Operation where
  operationId : Option String

/-- `operation.operationId || generateFunctionNameFromPath(method, path)`:
an empty `operationId` is falsy in JavaScript and falls through. -/
def functionNameOf (method path : String) (op : Operation) : String :=
  match op.operationId with
  | some id => if id = "" then generateFunctionNameFromPath method path else id
  | none => generateFunctionNameFromPath method path

/-! ## SchemaResolver: `resolveSchema` (src 394-411) -/

/-- The `unknown`-type marker `{type: 'any'}` the resolver degrades to. -/
def anySchema : Js :=
  Js.obj [("type", Js.str "any")]

/-- A schema node that is a bare reference pointer. -/
def mkRef (r : String) : Js :=
  Js.obj [("$ref", Js.str r)]

/-- `r.replace('#/', plain empty)`: removes the first occurrence only. -/
def dropFirstHashSlash : List Char → List Char
  | [] => []
  | '#' :: '/' :: rest => rest
  | c :: rest => c :: dropFirstHashSlash rest

/-- The walk segments of a `$ref` string. -/
def refSegments (r : String) : List String :=
  (splitChars '/' (dropFirstHashSlash r.data)).map String.mk

/-- The resolver's walk: step into each segment, failing as soon as a
step yields `undefined` or any other falsy value. -/
def walkTruthy (v : Js) : List String → Option Js
  | [] => some v
  | seg :: rest =>
    match indexJs v seg with
    | some v2 => if v2.truthy then walkTruthy v2 rest else none
    | none => none

/-- `resolveSchema(spec, schema)` with explicit recursion fuel: a falsy
schema resolves to the unknown marker; a `$ref` is walked from the
document root (a failure emits the diagnostic and degrades to the unknown
marker); a successful walk recurses to follow reference chains; any other
node is returned unchanged.  The second component collects the emitted
diagnostics. -/
def resolveSchema (spec : Js) : Nat → Option Js → Js × List String
  | _, none => (anySchema, [])
  | 0, some _ => (anySchema, [])
  | fuel + 1, some schema =>
    if schema.truthy then
      match getStrField schema "$ref" with
      | some r =>
        if r = "" then (schema, [])
        else
          match walkTruthy spec (refSegments r) with
          | some v => resolveSchema spec fuel (some v)
          | none => (anySchema, ["Could not resolve reference: " ++ r])
      | none => (schema, [])
    else (anySchema, [])

/-! ## TypeInferencer: `getTypeFromSchema` (src 418-448) -/

/-- The `typeMap` object at src 439-445, looked up with the schema's
`type`; a missing or non-string `type` yields the documentation-only
type `any`. -/
def typeMapLookup : Option String → String
  | some "integer" => "number"
  | some "number" => "number"
  | some "string" => "string"
  | some "boolean" => "boolean"
  | some "null" => "null"
  | _ => "any"

/-- `schema.required && schema.required.includes(name)`. -/
def isRequiredProp (schema : Js) (name : String) : Bool :=
  match getField schema "required" with
  | some (.arr xs) =>
      xs.any (fun e =>
        match e with
        | .str s => s = name
        | _ => false)
  | _ => false

/-- `Array.prototype.join` on a separator string. -/
def joinSepStr (sep : String) : List String → String
  | [] => ""
  | [x] => x
  | x :: y :: t => x ++ sep ++ joinSepStr sep (y :: t)

/-- `getTypeFromSchema(schema)` with explicit recursion fuel.  Note that
it receives a bare schema node and no document: it cannot dereference a
`$ref` encountered in `items` or in a property. -/
def getTypeFromSchema : Nat → Js → String
  | 0, _ => "any"
  | fuel + 1, schema =>
    if schema.truthy then
      if getStrField schema "type" = some "array" then
        match getField schema "items" with
        | some items =>
            if items.truthy then "Array<" ++ getTypeFromSchema fuel items ++ ">"
            else "Array<any>"
        | none => "Array<any>"
      else if getStrField schema "type" = some "object"
          || (!(fieldTruthy schema "type") && fieldTruthy schema "properties") then
        match getField schema "properties" with
        | some props =>
            if props.truthy then
              "\x7b" ++ joinSepStr ", " ((jsEntries props).map (fun nv =>
                nv.1 ++ (if isRequiredProp schema nv.1 then "" else "?") ++ ": "
                  ++ getTypeFromSchema fuel nv.2)) ++ "\x7d"
            else "object"
        | none => "object"
      else typeMapLookup (getStrField schema "type")
    else "any"

/-- The type printed in the JSDoc for a parameter or body schema
(src 325-326): the top-level node is resolved, the result inferred. -/
def paramType (fuel : Nat) (spec : Js) (schema : Option Js) : String :=
  getTypeFromSchema fuel (resolveSchema spec fuel schema).1

/-! ## FunctionSynthesizer: runtime behaviour of the emitted method
(query assembly at src 243-255, URL at 236-240, headers at 263-286). -/

/-- `encodeURIComponent`: unreserved characters kept, all others
percent-encoded bytewise over the character's UTF-8 encoding. -/
def isUnreservedChar (c : Char) : Bool :=
  c.isAlpha || c.isDigit || c = '-' || c = '_' || c = '.' || c = '!'
    || c = '~' || c = '*' || c = Char.ofNat 39 || c = '(' || c = ')'

def hexDigitChar (n : Nat) : Char :=
  if n < 10 then Char.ofNat (48 + n) else Char.ofNat (55 + n)

def utf8Units (n : Nat) : List Nat :=
  if n < 128 then [n]
  else if n < 2048 then [192 + n / 64, 128 + n % 64]
  else if n < 65536 then [224 + n / 4096, 128 + (n / 64) % 64, 128 + n % 64]
  else [240 + n / 262144, 128 + (n / 4096) % 64, 128 + (n / 64) % 64, 128 + n % 64]

def percentByte (b : Nat) : List Char :=
  ['%', hexDigitChar (b / 16), hexDigitChar (b % 16)]

def encodeURIComponent (s : String) : String :=
  String.mk (s.data.flatMap (fun c =>
    if isUnreservedChar c then [c]
    else (utf8Units c.toNat).flatMap percentByte))

/-- A query parameter of an operation. -/
structure QueryParam where
  name : String
  required : Bool

/-- The `queryString` array built by the emitted loop: one push of
`name=encodeURIComponent(value)` per query parameter whose destructured
runtime value is not `undefined`. -/
def buildQueryPairsAux (vals : String → Option String) :
    List QueryParam → List String → List String
  | [], acc => acc
  | p :: rest, acc =>
    match vals (normalizeParamName p.name) with
    | some v =>
        buildQueryPairsAux vals rest (acc ++ [p.name ++ "=" ++ encodeURIComponent v])
    | none => buildQueryPairsAux vals rest acc

def buildQueryPairs (qps : List QueryParam) (vals : String → Option String) :
    List String :=
  buildQueryPairsAux vals qps []

/-- `if (queryString.length > 0) url += '?' + queryString.join('&')`. -/
def addQueryString (url : String) (qps : List QueryParam)
    (vals : String → Option String) : String :=
  let pairs := buildQueryPairs qps vals
  if pairs.length > 0 then url ++ "?" ++ joinSepStr "&" pairs else url

/-- The URL before the query string: base URL then the path template with
every placeholder interpolated. -/
def buildUrl (base path : String) (vals : String → Option String) : String :=
  base ++ renderUrl (urlPieces path) vals

/-- The full URL a generated method requests. -/
def methodUrl (base path : String) (qps : List QueryParam)
    (vals : String → Option String) : String :=
  addQueryString (buildUrl base path vals) qps vals

/-- A header parameter of an operation. -/
structure HeaderParam where
  name : String

/-- A request body: its `content` is an ordered mime-type mapping. -/
structure RequestBody where
  required : Bool
  content : List (String × Js)

/-- `Object.keys(requestBody.content)[0] || 'application/json'`. -/
def contentTypeOf (b : RequestBody) : String :=
  match b.content with
  | [] => "application/json"
  | ct :: _ => if ct.1 = "" then "application/json" else ct.1

/-- The entries of a header-parameter group in an emitted header object
literal: the wire key is the original name, the value is the runtime
value bound to the normalized identifier. -/
def headerParamEntries (hps : List HeaderParam) (vals : String → Option String) :
    List (String × Option String) :=
  hps.map (fun p => (p.name, vals (normalizeParamName p.name)))

/-- The `header:` object literals emitted into the options record, in
order: one for header parameters when any exist, and one more when a body
exists (Content-Type first, then the header parameters again).  In a
JavaScript object literal a repeated key keeps the last occurrence. -/
def headerLiterals (hps : List HeaderParam) (body : Option RequestBody)
    (vals : String → Option String) : List (List (String × Option String)) :=
  (if hps.length > 0 then [headerParamEntries hps vals] else [])
    ++ (match body with
        | some b =>
            [("Content-Type", some (contentTypeOf b)) :: headerParamEntries hps vals]
        | none => [])

/-- The header object the transport helper receives: the last `header:`
property of the options literal wins. -/
def effectiveHeader (hps : List HeaderParam) (body : Option RequestBody)
    (vals : String → Option String) : Option (List (String × Option String)) :=
  (headerLiterals hps body vals).getLast?

/-- Lookup in an object literal's entry list: the last duplicate wins. -/
def lastLookup {α : Type} : List (String × α) → String → Option α
  | [], _ => none
  | e :: rest, k =>
    match lastLookup rest k with
    | some v => some v
    | none => if e.1 = k then some e.2 else none

/-! ## ModuleAssembler (src 64-94): traversal order and the client
object built by the emitted sequential `client.name = fn` assignments. -/

def httpMethods : List String :=
  ["get", "post", "put", "delete", "patch", "head", "options"]

/-- All (derived name, path, method, operation) tuples in document
declaration order, non-HTTP keys of a path item skipped. -/
def moduleFunctions (paths : List (String × List (String × Operation))) :
    List (String × String × String × Operation) :=
  paths.flatMap (fun pi =>
    (pi.2.filter (fun mo => httpMethods.contains mo.1)).map
      (fun mo => (functionNameOf mo.1 pi.1 mo.2, pi.1, mo.1, mo.2)))

/-- The client object: each synthesized method is assigned in order onto
one shared object, a later assignment overwriting an earlier one. -/
def clientObject {α : Type} (fns : List (String × α)) : String → Option α :=
  fns.foldl (fun m nf => fun k => if k = nf.1 then some nf.2 else m k)
    (fun _ => none)

/-! ## Concrete fixtures used by witnesses and counterexamples -/

/-- A document whose `components.schemas.Foo` is a string schema. -/
def fooDoc : Js :=
  Js.obj [("components", Js.obj [("schemas", Js.obj
    [("Foo", Js.obj [("type", Js.str "string")])])])]

/-- The node `fooDoc.components.schemas.Foo`. -/
def fooNode : Js :=
  Js.obj [("type", Js.str "string")]

/-- An array schema whose `items` is a reference into `fooDoc`. -/
def arrRefSchema : Js :=
  Js.obj [("type", Js.str "array"), ("items", mkRef "#/components/schemas/Foo")]

/-- A document where `Foo` is an object schema whose property `bar` is a
reference to the string schema `Bar`. -/
def nestedDoc : Js :=
  Js.obj [("components", Js.obj [("schemas", Js.obj
    [("Foo", Js.obj [("type", Js.str "object"),
       ("properties", Js.obj [("bar", mkRef "#/components/schemas/Bar")])]),
     ("Bar", Js.obj [("type", Js.str "string")])])])]

/-- Two operations declared in order whose derived names collide. -/
def collisionPaths : List (String × List (String × Operation)) :=
  [("/a", [("get", Operation.mk (some "dup"))]),
   ("/b", [("post", Operation.mk (some "dup"))])]

/-- Runtime values for the `/moment/list` example: `lastId` is `5`,
`size` is absent. -/
def momentVals : String → Option String :=
  fun n => if n = "lastId" then some "5" else none

/-- A header parameter literally named `Content-Type`. -/
def ctClashParams : List HeaderParam :=
  [HeaderParam.mk "Content-Type"]

/-- A JSON body declaring two content types in order. -/
def jsonXmlBody : RequestBody :=
  RequestBody.mk true [("application/json", Js.nullv), ("application/xml", Js.nullv)]

/-- Runtime values supplying the clashing header parameter. -/
def ctClashVals : String → Option String :=
  fun n => if n = "ContentType" then some "text/plain" else none

/-- Two ordinary header parameters. -/
def traceParams : List HeaderParam :=
  [HeaderParam.mk "X-Trace", HeaderParam.mk "X-Auth"]

/-- Runtime values for the two ordinary header parameters. -/
def traceVals : String → Option String :=
  fun n => if n = "XTrace" then some "t1" else if n = "XAuth" then some "a2" else none

/-! ## General helper lemmas -/

theorem strMk_data (s : String) : String.mk s.data = s := by
  cases s
  rfl

theorem replaceInvalid_id (cs : List Char)
    (h : cs.all (fun c => c.isAlpha || c.isDigit || c = '$') = true) :
    replaceInvalid cs = cs := by
  induction cs with
  | nil => rfl
  | cons c t ih =>
    rw [List.all_cons, Bool.and_eq_true] at h
    have hc : isIdentChar c = true := by
      simp only [isIdentChar, Bool.or_eq_true, decide_eq_true_eq]
      simp only [Bool.or_eq_true, decide_eq_true_eq] at h
      tauto
    have ht := ih h.2
    simp only [replaceInvalid] at ht
    simp [replaceInvalid, hc, ht]

theorem contains_false_of_all (cs : List Char) (c0 : Char)
    (h : cs.all (fun c => c.isAlpha || c.isDigit || c = '$') = true)
    (h0 : (c0.isAlpha || c0.isDigit || c0 = '$') = false) :
    cs.contains c0 = false := by
  have hmem : c0 ∉ cs := by
    intro hm
    have := List.all_eq_true.mp h c0 hm
    rw [h0] at this
    exact Bool.false_ne_true this
  simpa using hmem

theorem normalizeParamName_fixed (cs : List Char)
    (h : cs.all (fun c => c.isAlpha || c.isDigit || c = '$') = true)
    (hd : startsWithDigit cs = false) :
    normalizeParamName (String.mk cs) = String.mk cs := by
  have hdata : (String.mk cs).data = cs := rfl
  have hdash : cs.contains '-' = false :=
    contains_false_of_all cs '-' h (by decide)
  have hund : cs.contains '_' = false :=
    contains_false_of_all cs '_' h (by decide)
  simp only [normalizeParamName, hdata, replaceInvalid_id cs h, hd, hdash, hund]
  simp

/-! ## C1: idempotence of the identifier normalizer -/

/-- C1.  Counterexample: the normalizer is not idempotent as claimed.
The input `a b` normalizes to `a_b` (the space becomes an underscore and
the original contained no hyphen or underscore, so no camel collapse),
but a second application camel-collapses it to `aB`. -/
theorem normalizeParamName_not_idempotent :
    normalizeParamName (normalizeParamName "a b") ≠ normalizeParamName "a b" := by
  decide

/-- C1 (amended).  `normalizeParamName` is idempotent on inputs made of
letters, digits and the dollar sign that do not start with a digit: on
those it is the identity, hence applying it twice equals applying it
once.  (In general it is not idempotent: introducing underscores in the
first pass exposes a camel collapse, or a leading-digit guard, that only
the second pass performs.) -/
theorem normalizeParamName_idempotent_plain (x : String)
    (h : x.data.all (fun c => c.isAlpha || c.isDigit || c = '$') = true)
    (hd : startsWithDigit x.data = false) :
    normalizeParamName (normalizeParamName x) = normalizeParamName x := by
  have hx : normalizeParamName x = x := by
    have := normalizeParamName_fixed x.data h hd
    rwa [strMk_data] at this
  rw [hx]
  exact hx

/-- Witness for C1's amended theorem at the concrete input `fooBar`. -/
theorem normalizeParamName_idempotent_plain_witness :
    normalizeParamName (normalizeParamName "fooBar") = normalizeParamName "fooBar" :=
  normalizeParamName_idempotent_plain "fooBar" (by decide) (by decide)

/-! ## C2: the shape of the normalizer's output -/

/-- C2.  The code can return an identifier that starts with a digit,
contradicting the claim (and the source's own comment that it ensures
the name does not start with a number): on `1-a` the leading-digit guard
first prepends an underscore, but the subsequent camel collapse consumes
that underscore together with the digit `1`, leaving the output `1A`. -/
theorem normalizeParamName_digit_leak :
    normalizeParamName "1-a" = "1A"
      ∧ startsWithDigit (normalizeParamName "1-a").data = true := by
  decide

/-! ## Scanner and split lemmas for the naming scheme -/

theorem scanCore_no_brace (cs : List Char) :
    cs.contains obraceChar = false → scanCore cs none = cs.map PathPiece.lit := by
  induction cs with
  | nil => intro _; rfl
  | cons c t ih =>
    intro h
    have hmem : obraceChar ∉ c :: t := by simpa using h
    have hc : ¬ c = obraceChar := fun he => hmem (by rw [he]; exact List.mem_cons_self _ _)
    have ht : t.contains obraceChar = false := by
      have : obraceChar ∉ t := fun hm => hmem (List.mem_cons_of_mem _ hm)
      simpa using this
    simp [scanCore, hc, ih ht]

theorem flatMap_lit (cs : List Char) :
    (cs.map PathPiece.lit).flatMap pieceChars = cs := by
  induction cs <;> simp [pieceChars, *]

theorem removeBraces_no_brace (cs : List Char)
    (h : cs.contains obraceChar = false) : removeBraces cs = cs := by
  rw [removeBraces, scanPieces, scanCore_no_brace cs h, flatMap_lit]

theorem splitChars_ne_nil (sep : Char) (cs : List Char) : splitChars sep cs ≠ [] := by
  cases cs with
  | nil => simp [splitChars]
  | cons c t =>
    simp only [splitChars]
    rcases splitChars sep t with _ | ⟨a, r⟩
    · simp
    · by_cases hc : c = sep <;> simp [hc]

theorem splitChars_no_sep (sep : Char) (cs : List Char) :
    cs.contains sep = false → splitChars sep cs = [cs] := by
  induction cs with
  | nil => intro _; rfl
  | cons c t ih =>
    intro h
    have hmem : sep ∉ c :: t := by simpa using h
    have hc : ¬ c = sep := fun he => hmem (by rw [he]; exact List.mem_cons_self _ _)
    have ht : t.contains sep = false := by
      have : sep ∉ t := fun hm => hmem (List.mem_cons_of_mem _ hm)
      simpa using this
    simp [splitChars, ih ht, hc]

theorem splitChars_append (sep : Char) :
    ∀ (x r : List Char), x.contains sep = false →
      splitChars sep (x ++ sep :: r) = x :: splitChars sep r := by
  intro x
  induction x with
  | nil =>
    intro r _
    simp only [List.nil_append, splitChars]
    rcases hr : splitChars sep r with _ | ⟨a, t⟩
    · exact absurd hr (splitChars_ne_nil sep r)
    · simp
  | cons c x2 ih =>
    intro r h
    have hmem : sep ∉ c :: x2 := by simpa using h
    have hc : ¬ c = sep := fun he => hmem (by rw [he]; exact List.mem_cons_self _ _)
    have hx2 : x2.contains sep = false := by
      have : sep ∉ x2 := fun hm => hmem (List.mem_cons_of_mem _ hm)
      simpa using this
    rw [show (c :: x2) ++ sep :: r = c :: (x2 ++ sep :: r) from rfl]
    simp only [splitChars]
    rw [ih r hx2]
    simp [hc]

theorem joinSep_no_char (sep c0 : Char) (hne : ¬ sep = c0) :
    ∀ (segs : List (List Char)), (∀ s ∈ segs, s.contains c0 = false) →
      (joinSep sep segs).contains c0 = false := by
  intro segs
  induction segs with
  | nil => intro _; rfl
  | cons s t ih =>
    intro h
    cases t with
    | nil => exact h s (by simp)
    | cons s2 t2 =>
      have h1 := h s (by simp)
      have h2 : ∀ u ∈ s2 :: t2, u.contains c0 = false :=
        fun u hu => h u (List.mem_cons_of_mem _ hu)
      have hnm : c0 ∉ s ++ sep :: joinSep sep (s2 :: t2) := by
        intro hm
        rcases List.mem_append.mp hm with hm1 | hm2
        · exact absurd hm1 (by simpa using h1)
        · rcases List.mem_cons.mp hm2 with he | hm3
          · exact hne he.symm
          · exact absurd hm3 (by simpa using ih h2)
      rw [show joinSep sep (s :: s2 :: t2) = s ++ sep :: joinSep sep (s2 :: t2) from rfl]
      simpa using hnm

theorem splitChars_joinSep (sep : Char) :
    ∀ (s0 : List Char) (rest : List (List Char)),
      (∀ s ∈ s0 :: rest, s.contains sep = false) →
      splitChars sep (joinSep sep (s0 :: rest)) = s0 :: rest := by
  intro s0 rest
  induction rest generalizing s0 with
  | nil => intro h; exact splitChars_no_sep sep s0 (h s0 (by simp))
  | cons s1 t ih =>
    intro h
    have h0 := h s0 (by simp)
    have h1 : ∀ s ∈ s1 :: t, s.contains sep = false :=
      fun s hs => h s (List.mem_cons_of_mem _ hs)
    rw [show joinSep sep (s0 :: s1 :: t) = s0 ++ sep :: joinSep sep (s1 :: t) from rfl]
    rw [splitChars_append sep s0 _ h0, ih s1 h1]

/-! ## C3: the derived method name -/

/-- C3.  Counterexample: for method `get` and path `/moment/list` the
code derives `getmomentList`, not the claimed `getMomentList` (the first
segment is lowercased and concatenated directly after the method name),
and for `/a/bC` it derives `getaBc`, not `getaBC` (the characters of a
later segment after its first are lowercased, not left unchanged). -/
theorem functionName_example_mismatch :
    generateFunctionNameFromPath "get" "/moment/list" = "getmomentList"
      ∧ generateFunctionNameFromPath "get" "/moment/list" ≠ "getMomentList"
      ∧ generateFunctionNameFromPath "get" "/a/bC" = "getaBc"
      ∧ generateFunctionNameFromPath "get" "/a/bC" ≠ "getaBC" := by
  decide

/-- C3 (amended).  Without an `operationId`, the name is: strip the
leading slash, remove placeholder braces, split on `/`, lowercase the
first segment, capitalize the first character of each later segment and
lowercase its remaining characters, join, and put the lowercased method
name first; so `get` with `/moment/list` yields `getmomentList`.  A
non-empty `operationId` is used verbatim.  Stated segment-wise for any
path assembled from slash-free, brace-free segments. -/
theorem functionName_scheme :
    (∀ (method : String) (s0 : List Char) (rest : List (List Char)),
      (∀ s ∈ s0 :: rest, s.contains '/' = false ∧ s.contains obraceChar = false) →
      generateFunctionNameFromPath method (String.mk ('/' :: joinSep '/' (s0 :: rest)))
        = String.mk (lowerChars method.data ++ (lowerChars s0 ++ (rest.map capSeg).flatten)))
    ∧ (∀ (method path id : String), id ≠ "" →
        functionNameOf method path (Operation.mk (some id)) = id)
    ∧ generateFunctionNameFromPath "get" "/moment/list" = "getmomentList" := by
  refine ⟨?_, ?_, by decide⟩
  · intro method s0 rest h
    have hbrace : ∀ s ∈ s0 :: rest, s.contains obraceChar = false :=
      fun s hs => (h s hs).2
    have hslash : ∀ s ∈ s0 :: rest, s.contains '/' = false :=
      fun s hs => (h s hs).1
    have hJ : (joinSep '/' (s0 :: rest)).contains obraceChar = false :=
      joinSep_no_char '/' obraceChar (by decide) _ hbrace
    simp only [generateFunctionNameFromPath]
    rw [show dropLeadingSlash ('/' :: joinSep '/' (s0 :: rest))
          = joinSep '/' (s0 :: rest) from by simp [dropLeadingSlash]]
    rw [removeBraces_no_brace _ hJ]
    rw [splitChars_joinSep '/' s0 rest hslash]
  · intro method path id hid
    simp [functionNameOf, hid]

/-- Witness for C3's amended theorem: the segment form at
`get /moment/list`, and a verbatim `operationId`. -/
theorem functionName_scheme_witness :
    generateFunctionNameFromPath "get"
        (String.mk ('/' :: joinSep '/' ("moment".data :: ["list".data])))
      = String.mk (lowerChars "get".data
          ++ (lowerChars "moment".data ++ (["list".data].map capSeg).flatten))
    ∧ functionNameOf "get" "/x" (Operation.mk (some "listMoments")) = "listMoments" :=
  ⟨functionName_scheme.1 "get" "moment".data ["list".data] (by decide),
   functionName_scheme.2.1 "get" "/x" "listMoments" (by decide)⟩

/-! ## C4 and C10: type inference on arrays, objects and references -/

theorem getType_mkRef (fuel : Nat) (r : String) :
    getTypeFromSchema (fuel + 1) (mkRef r) = "any" := rfl

/-- C4.  Counterexample: on an array schema whose `items` is a reference
to the string schema `Foo`, the code infers `Array<any>`; resolving the
items first (as the claim requires) would infer `string`, giving
`Array<string>`. -/
theorem arrayItems_ref_not_resolved :
    getTypeFromSchema 5 arrRefSchema = "Array<any>"
      ∧ getTypeFromSchema 5 (resolveSchema fooDoc 5 (getField arrRefSchema "items")).1
          = "string"
      ∧ getTypeFromSchema 5 arrRefSchema
          ≠ "Array<"
              ++ getTypeFromSchema 5 (resolveSchema fooDoc 5 (getField arrRefSchema "items")).1
              ++ ">" := by
  decide

/-- C4 (amended).  For an array schema the inferred type is `Array<T>`
where `T` is the inference of the raw `items` node, with no reference
resolution applied to it: a truthy `items` is inferred as-is, a missing
or falsy `items` gives `Array<any>`, and in particular a `$ref` items
node gives `Array<any>`. -/
theorem arrayType_scheme :
    (∀ (fuel : Nat) (items : Js),
      getTypeFromSchema (fuel + 1) (Js.obj [("type", Js.str "array"), ("items", items)])
        = if items.truthy then "Array<" ++ getTypeFromSchema fuel items ++ ">"
          else "Array<any>")
    ∧ (∀ fuel : Nat,
        getTypeFromSchema (fuel + 1) (Js.obj [("type", Js.str "array")]) = "Array<any>")
    ∧ (∀ (fuel : Nat) (r : String),
        getTypeFromSchema (fuel + 2)
            (Js.obj [("type", Js.str "array"), ("items", mkRef r)]) = "Array<any>") := by
  refine ⟨fun fuel items => rfl, fun fuel => rfl, fun fuel r => ?_⟩
  have h1 : getTypeFromSchema (fuel + 2)
      (Js.obj [("type", Js.str "array"), ("items", mkRef r)])
      = "Array<" ++ getTypeFromSchema (fuel + 1) (mkRef r) ++ ">" := rfl
  rw [h1, getType_mkRef]
  rfl

/-- C10.  `getTypeFromSchema` receives no document and never
dereferences a `$ref` node: a bare reference infers as `any`, an object
property holding a reference infers that property as `any`, and in the
concrete `nestedDoc` only the top-level reference handed to
`resolveSchema` is followed, so `Foo`'s property `bar` (a reference to
the string schema `Bar`) loses its structural type while a top-level
reference to `Bar` still infers `string`. -/
theorem nested_ref_any :
    (∀ (fuel : Nat) (r : String), getTypeFromSchema (fuel + 1) (mkRef r) = "any")
    ∧ (∀ (fuel : Nat) (r name : String),
        getTypeFromSchema (fuel + 2)
            (Js.obj [("type", Js.str "object"),
              ("properties", Js.obj [(name, mkRef r)])])
          = "\x7b" ++ name ++ "?: any\x7d")
    ∧ paramType 9 nestedDoc (some (mkRef "#/components/schemas/Foo")) = "\x7bbar?: any\x7d"
    ∧ paramType 9 nestedDoc (some (mkRef "#/components/schemas/Bar")) = "string" := by
  refine ⟨getType_mkRef, fun fuel r name => ?_, by decide, by decide⟩
  have h1 : getTypeFromSchema (fuel + 2)
      (Js.obj [("type", Js.str "object"), ("properties", Js.obj [(name, mkRef r)])])
      = "\x7b" ++ (name ++ "?" ++ ": " ++ getTypeFromSchema (fuel + 1) (mkRef r)) ++ "\x7d" :=
    rfl
  rw [h1, getType_mkRef]
  simp only [String.append_assoc]
  rfl

/-! ## C5: interpolation points of the synthesized URL template -/

theorem filterMap_pieces (l : List PathPiece) :
    (l.map pieceToUrl).filterMap urlInterpName
      = (l.filterMap piecePlaceholder).map normalizeParamName := by
  induction l with
  | nil => rfl
  | cons p t ih =>
    cases p <;> simp [pieceToUrl, urlInterpName, piecePlaceholder, ih]

/-- C5.  The synthesized URL template for a path has its interpolation
points exactly at the path's placeholders, in order, each bound to the
normalized placeholder name; in particular when the placeholder names
are distinct, a path with `n` placeholders yields exactly `n`
interpolation points. -/
theorem urlTemplate_interpolation (path : String) :
    interpNames (urlPieces path) = (placeholderNames path).map normalizeParamName
      ∧ ((placeholderNames path).Nodup →
          (interpNames (urlPieces path)).length = (placeholderNames path).length) := by
  have key : interpNames (urlPieces path)
      = (placeholderNames path).map normalizeParamName := by
    simp only [interpNames, urlPieces, placeholderNames]
    exact filterMap_pieces (scanPieces path.data)
  exact ⟨key, fun _ => by rw [key, List.length_map]⟩

/-- Witness for C5 at the two-placeholder path `/user/{id}/posts/{postId}`. -/
theorem urlTemplate_interpolation_witness :
    (placeholderNames "/user/{id}/posts/{postId}").Nodup
      ∧ (interpNames (urlPieces "/user/{id}/posts/{postId}")).length
          = (placeholderNames "/user/{id}/posts/{postId}").length :=
  ⟨by decide, (urlTemplate_interpolation "/user/{id}/posts/{postId}").2 (by decide)⟩

/-! ## C6: reference resolution against `components.schemas` -/

theorem resolveSchema_fooRef_unfold (d : Js) (f : Nat) :
    resolveSchema d (f + 1) (some (mkRef "#/components/schemas/Foo"))
      = match walkTruthy d ["components", "schemas", "Foo"] with
        | some v => resolveSchema d f (some v)
        | none => (anySchema, ["Could not resolve reference: #/components/schemas/Foo"]) :=
  rfl

/-- C6.  When the walk to `components.schemas.Foo` reaches a (truthy)
node `foo`, resolving the reference schema is exactly resolving `foo`
directly (the reference step consumes one unit of fuel and emits no
diagnostic); when the walk fails at some segment, resolution returns the
unknown marker `{type: 'any'}` together with the diagnostic, and---being
a total function---never raises an error. -/
theorem resolveRef_components (doc foo : Js) (fuel : Nat) :
    (walkTruthy doc ["components", "schemas", "Foo"] = some foo →
      resolveSchema doc (fuel + 1) (some (mkRef "#/components/schemas/Foo"))
        = resolveSchema doc fuel (some foo))
    ∧ (walkTruthy doc ["components", "schemas", "Foo"] = none →
      resolveSchema doc (fuel + 1) (some (mkRef "#/components/schemas/Foo"))
        = (anySchema, ["Could not resolve reference: #/components/schemas/Foo"])) := by
  constructor <;> intro h <;> rw [resolveSchema_fooRef_unfold, h]

/-- Witness for C6: in `fooDoc` the walk reaches the string schema, and
in the empty document it fails and yields the marker plus diagnostic. -/
theorem resolveRef_components_witness :
    resolveSchema fooDoc 3 (some (mkRef "#/components/schemas/Foo"))
        = resolveSchema fooDoc 2 (some fooNode)
      ∧ resolveSchema (Js.obj []) 3 (some (mkRef "#/components/schemas/Foo"))
          = (anySchema, ["Could not resolve reference: #/components/schemas/Foo"]) :=
  ⟨(resolveRef_components fooDoc fooNode 2).1 rfl,
   (resolveRef_components (Js.obj []) anySchema 2).2 rfl⟩

/-! ## C7: query-string assembly of a generated method -/

theorem buildQueryPairsAux_spec (vals : String → Option String) :
    ∀ (qps : List QueryParam) (acc : List String),
      buildQueryPairsAux vals qps acc
        = acc ++ qps.filterMap (fun p =>
            (vals (normalizeParamName p.name)).map
              (fun v => p.name ++ "=" ++ encodeURIComponent v)) := by
  intro qps
  induction qps with
  | nil => intro acc; simp [buildQueryPairsAux]
  | cons p t ih =>
    intro acc
    cases hv : vals (normalizeParamName p.name) <;>
      simp [buildQueryPairsAux, hv, ih]

/-- C7.  A generated method's query string contains, in declaration
order, exactly the pairs `name=encodeURIComponent(value)` of the query
parameters (required or not) whose runtime value is not the absent
sentinel; the pairs are joined with an ampersand and the question-mark
separator is omitted when no pair qualifies; invoking the
`/moment/list` method with only `lastId = 5` builds
`<<base>>/moment/list?lastId=5` with no `size` term. -/
theorem queryAssembly_spec :
    (∀ (qps : List QueryParam) (vals : String → Option String),
      buildQueryPairs qps vals
        = qps.filterMap (fun p =>
            (vals (normalizeParamName p.name)).map
              (fun v => p.name ++ "=" ++ encodeURIComponent v)))
    ∧ (∀ (base path : String) (qps : List QueryParam) (vals : String → Option String),
        methodUrl base path qps vals
          = buildUrl base path vals
              ++ (if (buildQueryPairs qps vals).length = 0 then ""
                  else "?" ++ joinSepStr "&" (buildQueryPairs qps vals)))
    ∧ methodUrl "<<base>>" "/moment/list"
        [QueryParam.mk "lastId" false, QueryParam.mk "size" false] momentVals
        = "<<base>>/moment/list?lastId=5" := by
  refine ⟨fun qps vals => by
      simpa [buildQueryPairs] using buildQueryPairsAux_spec vals qps [], ?_, by decide⟩
  intro base path qps vals
  simp only [methodUrl, addQueryString]
  rcases hq : buildQueryPairs qps vals with _ | ⟨a, t⟩
  · simp [String.append_empty]
  · simp [String.append_assoc]

/-! ## C8: header assembly of a generated method -/

theorem find?_app {α : Type} (p : α → Bool) :
    ∀ (l₁ l₂ : List α),
      (l₁ ++ l₂).find? p
        = match l₁.find? p with
          | some x => some x
          | none => l₂.find? p := by
  intro l₁ l₂
  induction l₁ with
  | nil => rfl
  | cons a t ih =>
    by_cases h : p a <;> simp [List.find?, h, ih]

theorem find?_none_of {α : Type} (p : α → Bool) (l : List α)
    (h : ∀ x ∈ l, p x = false) : l.find? p = none := by
  induction l with
  | nil => rfl
  | cons a t ih =>
    have ha := h a (by simp)
    simp [List.find?, ha, ih (fun x hx => h x (List.mem_cons_of_mem _ hx))]

theorem lastLookup_headerEntries (hps : List HeaderParam)
    (vals : String → Option String) (n : String) :
    lastLookup (headerParamEntries hps vals) n
      = (hps.reverse.find? (fun p => p.name == n)).map
          (fun p => vals (normalizeParamName p.name)) := by
  induction hps with
  | nil => rfl
  | cons p t ih =>
    simp only [headerParamEntries, List.map_cons] at ih ⊢
    simp only [lastLookup]
    rw [ih, List.reverse_cons, find?_app]
    cases hf : t.reverse.find? (fun q => q.name == n) with
    | some x => simp [hf]
    | none =>
      cases hb : (p.name == n) with
      | false =>
        have hn : ¬ p.name = n := by simpa using hb
        simp [hf, hb, hn, List.find?]
      | true =>
        have hn : p.name = n := by simpa using hb
        simp [hf, hb, hn, List.find?]

/-- C8.  Counterexample: with a header parameter literally named
`Content-Type` and a body declaring `application/json` first, the
effective Content-Type entry is the header parameter's runtime value
(`text/plain`), not the body's first declared content type, because the
generator emits the parameter entry after the body-derived entry. -/
theorem contentType_header_override :
    lastLookup ((effectiveHeader ctClashParams (some jsonXmlBody) ctClashVals).getD [])
        "Content-Type" = some (some "text/plain")
      ∧ contentTypeOf jsonXmlBody = "application/json"
      ∧ (some (some "text/plain") : Option (Option String))
          ≠ some (some "application/json") := by
  decide

/-- C8 (amended).  For an operation with a body the effective header map
is the body-branch literal: a `Content-Type` entry (the first declared
content key, when that key is non-empty) followed by one entry per
header parameter, keyed by the original name and bound to the normalized
identifier's runtime value.  The `Content-Type` entry survives provided
no header parameter is itself named `Content-Type` (such a parameter,
emitted later, overrides it), and a lookup of any other key yields the
last declared header parameter of that name. -/
theorem headerAssembly_amended (hps : List HeaderParam) (b : RequestBody)
    (vals : String → Option String) :
    effectiveHeader hps (some b) vals
        = some (("Content-Type", some (contentTypeOf b)) :: headerParamEntries hps vals)
      ∧ (∀ hd, b.content.head? = some hd → hd.1 ≠ "" → contentTypeOf b = hd.1)
      ∧ ((∀ p ∈ hps, p.name ≠ "Content-Type") →
          lastLookup
              (("Content-Type", some (contentTypeOf b)) :: headerParamEntries hps vals)
              "Content-Type"
            = some (some (contentTypeOf b)))
      ∧ (∀ n, n ≠ "Content-Type" →
          lastLookup
              (("Content-Type", some (contentTypeOf b)) :: headerParamEntries hps vals) n
            = (hps.reverse.find? (fun p => p.name == n)).map
                (fun p => vals (normalizeParamName p.name))) := by
  refine ⟨?_, ?_, ?_, ?_⟩
  · cases hps <;> simp [effectiveHeader, headerLiterals, headerParamEntries]
  · intro hd hhd hne
    cases hb : b.content with
    | nil => rw [hb] at hhd; simp at hhd
    | cons c t =>
      rw [hb] at hhd
      have hc : c = hd := by simpa using hhd
      subst hc
      simp [contentTypeOf, hb, hne]
  · intro hno
    have hfn : hps.reverse.find? (fun p => p.name == "Content-Type") = none := by
      apply find?_none_of
      intro x hx
      exact beq_eq_false_iff_ne.mpr (hno x (List.mem_reverse.mp hx))
    simp only [lastLookup]
    rw [lastLookup_headerEntries, hfn]
    simp
  · intro n hn
    simp only [lastLookup]
    rw [lastLookup_headerEntries]
    cases hf : hps.reverse.find? (fun p => p.name == n) <;> simp [hf, Ne.symm hn]

/-- Witness for C8's amended theorem on two ordinary header parameters
and a body declaring `application/json` then `application/xml`. -/
theorem headerAssembly_amended_witness :
    contentTypeOf jsonXmlBody = "application/json"
      ∧ lastLookup
            (("Content-Type", some (contentTypeOf jsonXmlBody))
              :: headerParamEntries traceParams traceVals) "Content-Type"
          = some (some (contentTypeOf jsonXmlBody))
      ∧ lastLookup
            (("Content-Type", some (contentTypeOf jsonXmlBody))
              :: headerParamEntries traceParams traceVals) "X-Auth"
          = (traceParams.reverse.find? (fun p => p.name == "X-Auth")).map
              (fun p => traceVals (normalizeParamName p.name)) :=
  ⟨(headerAssembly_amended traceParams jsonXmlBody traceVals).2.1
      ("application/json", Js.nullv) rfl (by decide),
   (headerAssembly_amended traceParams jsonXmlBody traceVals).2.2.1 (by decide),
   (headerAssembly_amended traceParams jsonXmlBody traceVals).2.2.2 "X-Auth" (by decide)⟩

/-! ## C9: name collisions in the assembled client object -/

theorem clientObject_foldl {α : Type} :
    ∀ (fns : List (String × α)) (init : String → Option α) (k : String),
      List.foldl (fun m nf => fun q => if q = nf.1 then some nf.2 else m q) init fns k
        = match fns.reverse.find? (fun e => e.1 == k) with
          | some e => some e.2
          | none => init k := by
  intro fns
  induction fns with
  | nil => intro init k; rfl
  | cons nf t ih =>
    intro init k
    rw [List.foldl_cons, ih, List.reverse_cons, find?_app]
    cases hf : t.reverse.find? (fun e => e.1 == k) with
    | some e => simp [hf]
    | none =>
      by_cases hk : nf.1 = k
      · subst hk; simp [hf, List.find?]
      · have hk2 : ¬ k = nf.1 := fun h => hk h.symm
        have hb : (nf.1 == k) = false := beq_eq_false_iff_ne.mpr hk
        simp [hf, List.find?, hk2, hb]

/-- C9.  The client object maps each name to the method of the last
(most recently declared) operation deriving that name---a later
assignment overwrites an earlier one, names are never auto-renamed, and
a name holds exactly one method; concretely, for two colliding
operations the surviving method is the later-declared one. -/
theorem collision_later_wins :
    (∀ (paths : List (String × List (String × Operation))) (name : String),
      clientObject (moduleFunctions paths) name
        = ((moduleFunctions paths).reverse.find? (fun e => e.1 == name)).map
            (fun e => e.2))
    ∧ clientObject (moduleFunctions collisionPaths) "dup"
        = some ("/b", "post", Operation.mk (some "dup")) := by
  refine ⟨?_, rfl⟩
  intro paths name
  rw [show clientObject (moduleFunctions paths) name
        = List.foldl (fun m nf => fun q => if q = nf.1 then some nf.2 else m q)
            (fun _ => none) (moduleFunctions paths) name from rfl,
      clientObject_foldl]
  cases hf : (moduleFunctions paths).reverse.find? (fun e => e.1 == name) <;> simp [hf]

end OpenapiWx
